import Mathlib

/-!
Verification of the shot-plot app's scoring engine and shot log.

The embedding below follows the two source files of the repository,
`src/dash_app.py` and `src/streamlit_app.py`, which contain the same
core logic (`compute_score`, the click-to-millimeter pipeline, the shot
list held in a store / session state, and the CSV export callback).
Python floats are modelled as exact rationals; `math.hypot` (a square
root) is eliminated by comparing squared distances, and the equivalence
with the square-root formulation is proved (`ringContains_iff_hitBySq`).
Python's `sorted` is a stable sort, modelled by `List.mergeSort`, which
is also stable.
-/

namespace ShotPlot

/-- One scoring ring of a target, as read from `target_specs.json`:
the dict keys are `ring`, `diameter` (mm), `points`, `color`. -/
structure RingSpec where
  ring : String
  diameter : ℚ
  points : ℤ
  color : String
deriving DecidableEq

/-- Comparison used as the sort key in
`sorted(rings, key=lambda r: r["diameter"])`. -/
def diamLE (a b : RingSpec) : Bool :=
  decide (a.diameter ≤ b.diameter)

/-- Ascending stable sort of the rings by diameter, the
`sorted(rings, key=lambda r: r["diameter"])` of both `compute_score`
implementations (dash_app.py line 20, streamlit_app.py line 61).
Python's `sorted` is stable; so is `List.mergeSort`. -/
def sortRings (rings : List RingSpec) : List RingSpec :=
  rings.mergeSort diamLE

/-- The scan loop shared by both `compute_score` implementations:
return the `points` of the first ring satisfying the hit test, else `0`
after the loop. -/
def scanRings (p : RingSpec → Bool) : List RingSpec → ℤ
  | [] => 0
  | r :: rs => if p r then r.points else scanRings p rs

/-- The hit test `distance_mm <= ring["diameter"] / 2` of
dash_app.py line 21 / streamlit_app.py line 62, for a caller-supplied
distance. -/
def hitAtDist (distance_mm : ℚ) (r : RingSpec) : Bool :=
  decide (distance_mm ≤ r.diameter / 2)

/-- The function `compute_score` (dash_app.py lines 18-23,
streamlit_app.py lines 60-64): scan the rings in ascending diameter
order and return the points of the first ring whose half-diameter is at
least the given distance, else `0`.  The ring lookup by target name in
the dash variant resolves to the ring list passed here. -/
def compute_score (rings : List RingSpec) (distance_mm : ℚ) : ℤ :=
  scanRings (hitAtDist distance_mm) (sortRings rings)

/-- The same hit test applied to `distance_mm = math.hypot(dx_mm, dy_mm)`,
expressed on the squared distance so that it stays inside ℚ:
for `0 ≤ s`, `Real.sqrt s ≤ d / 2` holds iff `0 ≤ d / 2 ∧ s ≤ (d / 2) ^ 2`
(proved below as `ringContains_iff_hitBySq`). -/
def hitBySq (distSq : ℚ) (r : RingSpec) : Bool :=
  decide (0 ≤ r.diameter / 2 ∧ distSq ≤ (r.diameter / 2) ^ 2)

/-- `compute_score` applied to the hypotenuse distance, phrased on the
squared distance. -/
def compute_score_sq (rings : List RingSpec) (distSq : ℚ) : ℤ :=
  scanRings (hitBySq distSq) (sortRings rings)

/-- The expression `max(r["diameter"] for r in rings)`
(dash_app.py lines 30 and 165, streamlit_app.py line 41).  Python's
`max` raises on an empty sequence; every claim supplies a non-empty
ring list, and `0` is the junk value for `[]`. -/
def maxDiameter (rings : List RingSpec) : ℚ :=
  ((rings.map RingSpec.diameter).max?).getD 0

/-- Result of scoring one click: millimeter offsets and the score. -/
structure ScoredClick where
  x_mm : ℚ
  y_mm : ℚ
  score : ℤ
deriving DecidableEq

/-- The click-to-score pipeline of streamlit_app.py lines 40-44 and
159-167 (identically dash_app.py lines 163-173 with `canvas_size = 800`):
`center = canvas_width / 2`, `pixels_per_mm = canvas_width / max_diameter`,
`dx_mm = (px - center) / pixels_per_mm`, `dy_mm = (center - py) / pixels_per_mm`
(the Y axis inverted), `distance_mm = math.hypot(dx_mm, dy_mm)`,
`score = compute_score(distance_mm)`. -/
def scorePipeline (rings : List RingSpec) (canvas_width px py : ℚ) : ScoredClick :=
  let canvas_center := canvas_width / 2
  let pixels_per_mm := canvas_width / maxDiameter rings
  let dx_mm := (px - canvas_center) / pixels_per_mm
  let dy_mm := (canvas_center - py) / pixels_per_mm
  { x_mm := dx_mm
    y_mm := dy_mm
    score := compute_score_sq rings (dx_mm ^ 2 + dy_mm ^ 2) }

/-- One logged shot, with the dict keys of dash_app.py lines 175-184 /
streamlit_app.py lines 170-179: `shot`, `score`, `x_mm`, `y_mm`,
`pixel_x`, `pixel_y`. -/
structure Shot where
  shot : ℕ
  score : ℤ
  x_mm : ℚ
  y_mm : ℚ
  pixel_x : ℚ
  pixel_y : ℚ
deriving DecidableEq

/-- A click event's pixel coordinates, `point["x"]` / `point["y"]`. -/
structure ClickPoint where
  x : ℚ
  y : ℚ
deriving DecidableEq

/-- Appending one click to the shot list (dash_app.py lines 162-184,
streamlit_app.py lines 159-179): score the click at canvas size 800 and
append a dict with `shot = len(shots) + 1`. -/
def appendClick (rings : List RingSpec) (point : ClickPoint) (shots : List Shot) :
    List Shot :=
  let res := scorePipeline rings 800 point.x point.y
  shots ++ [{ shot := shots.length + 1
              score := res.score
              x_mm := res.x_mm
              y_mm := res.y_mm
              pixel_x := point.x
              pixel_y := point.y }]

/-- Which input fired the dash `update_shots` callback
(`callback_context.triggered_id`). -/
inductive Trigger where
  | clearBtn
  | targetSelect
  | targetGraph
deriving DecidableEq

/-- The dash callback `update_shots` (dash_app.py lines 154-186): the
clear button and a target change reset the store to `[]`; a click on the
graph appends a scored shot; anything else leaves the store unchanged. -/
def update_shots (triggered : Trigger) (clickData : Option ClickPoint)
    (rings : List RingSpec) (shots : List Shot) : List Shot :=
  match triggered, clickData with
  | .clearBtn, _ => []
  | .targetSelect, _ => []
  | .targetGraph, some point => appendClick rings point shots
  | .targetGraph, none => shots

/-- The streamlit clear-button handler (streamlit_app.py line 204):
`st.session_state.shots = []`. -/
def clearShots (_shots : List Shot) : List Shot := []

/-- The streamlit target-change handler (streamlit_app.py lines 53-57):
a differing selection resets `st.session_state.shots = []`. -/
def onTargetChanged (_shots : List Shot) (_newTarget : String) : List Shot := []

/-- Column order of `pd.DataFrame(shots)` in the dash export
(dash_app.py line 218): the insertion order of the shot dict keys.  All
six fields are exported, not only the four displayed in the table. -/
def exportHeader : List String :=
  ["shot", "score", "x_mm", "y_mm", "pixel_x", "pixel_y"]

/-- One CSV data row of the dash export: the raw (unrounded) field
values in header order. -/
def shotRow (s : Shot) : List ℚ :=
  [(s.shot : ℚ), (s.score : ℚ), s.x_mm, s.y_mm, s.pixel_x, s.pixel_y]

/-- The dash callback `trigger_download` (dash_app.py lines 215-219),
modelled at the level of cells: `if not shots: return dash.no_update`
(no byte stream), else `pd.DataFrame(shots).to_csv(index=False)` — the
header row followed by one row per shot in store order. -/
def trigger_download (shots : List Shot) : Option (List String × List (List ℚ)) :=
  if shots.isEmpty then none
  else some (exportHeader, shots.map shotRow)

/-- Shot lists reachable through the dash `update_shots` callback from
the initial empty store (`dcc.Store(id="shots-store", data=[])`). -/
inductive Reachable : List Shot → Prop
  | empty : Reachable []
  | step (triggered : Trigger) (clickData : Option ClickPoint)
      (rings : List RingSpec) {shots : List Shot} :
      Reachable shots → Reachable (update_shots triggered clickData rings shots)

/-- Spec-side containment predicate, in the words of the claims: the
click's distance from the center, `sqrt (x_mm ^ 2 + y_mm ^ 2)`, is at
most the ring's radius `diameter / 2` (boundary inclusive). -/
def RingContains (r : RingSpec) (distSq : ℚ) : Prop :=
  Real.sqrt (distSq : ℝ) ≤ (r.diameter : ℝ) / 2

/-- The square-root hit test and its in-ℚ squared form agree. -/
theorem ringContains_iff_hitBySq (r : RingSpec) (s : ℚ) :
    RingContains r s ↔ hitBySq s r = true := by
  unfold RingContains hitBySq
  rw [Real.sqrt_le_iff]
  simp only [decide_eq_true_eq]
  constructor
  · rintro ⟨h1, h2⟩
    exact ⟨by exact_mod_cast h1, by exact_mod_cast h2⟩
  · rintro ⟨h1, h2⟩
    exact ⟨by exact_mod_cast h1, by exact_mod_cast h2⟩

/-! Helper lemmas about the sort and the scan. -/

/-- Transitivity of the diameter comparison. -/
theorem diamLE_trans : ∀ (a b c : RingSpec), diamLE a b → diamLE b c → diamLE a c := by
  intro a b c hab hbc
  simp only [diamLE, decide_eq_true_eq] at hab hbc ⊢
  exact le_trans hab hbc

/-- Totality of the diameter comparison. -/
theorem diamLE_total : ∀ (a b : RingSpec), diamLE a b || diamLE b a := by
  intro a b
  simp only [diamLE, Bool.or_eq_true, decide_eq_true_eq]
  exact le_total _ _

/-- The sorted ring list is a permutation of the input. -/
theorem sortRings_perm (rings : List RingSpec) : (sortRings rings).Perm rings :=
  List.mergeSort_perm rings diamLE

/-- The sorted ring list is pairwise ascending in diameter. -/
theorem sortRings_pairwise (rings : List RingSpec) :
    (sortRings rings).Pairwise (fun a b => diamLE a b) :=
  List.sorted_mergeSort diamLE_trans diamLE_total rings

/-- Membership is preserved by the sort. -/
theorem mem_sortRings {r : RingSpec} {rings : List RingSpec} :
    r ∈ sortRings rings ↔ r ∈ rings :=
  List.mem_mergeSort

/-- The scan loop is the first-match search: it returns the points of
`find?`'s result, or `0` when nothing matches. -/
theorem scanRings_eq_find? (p : RingSpec → Bool) :
    ∀ l : List RingSpec, scanRings p l = ((l.find? p).map RingSpec.points).getD 0
  | [] => rfl
  | r :: rs => by
    cases hp : p r with
    | true => simp [scanRings, List.find?_cons, hp]
    | false => simp [scanRings, List.find?_cons, hp, scanRings_eq_find? p rs]

/-- On a list sorted ascending by diameter, the scan either returns the
points of a matching ring of minimal diameter among the matches, or `0`
when no ring matches. -/
theorem scanRings_sorted_spec (p : RingSpec → Bool) :
    ∀ l : List RingSpec, l.Pairwise (fun a b => diamLE a b) →
      (∃ r ∈ l, p r ∧ scanRings p l = r.points ∧
        ∀ r' ∈ l, p r' → r.diameter ≤ r'.diameter) ∨
      ((∀ r ∈ l, ¬ p r) ∧ scanRings p l = 0)
  | [], _ => .inr ⟨by simp, rfl⟩
  | r :: rs, h => by
    rw [List.pairwise_cons] at h
    obtain ⟨hhead, htail⟩ := h
    by_cases hp : p r
    · left
      refine ⟨r, List.mem_cons_self r rs, hp, by simp [scanRings, hp], ?_⟩
      intro r' hr' _
      rcases List.mem_cons.mp hr' with h | h
      · exact h ▸ le_refl _
      · have := hhead r' h
        simpa only [diamLE, decide_eq_true_eq] using this
    · have hscan : scanRings p (r :: rs) = scanRings p rs := by
        simp [scanRings, hp]
      rcases scanRings_sorted_spec p rs htail with ⟨r₀, hr₀, hp₀, heq, hmin⟩ | ⟨hnone, heq⟩
      · left
        refine ⟨r₀, List.mem_cons_of_mem r hr₀, hp₀, hscan ▸ heq, ?_⟩
        intro r' hr' hp'
        rcases List.mem_cons.mp hr' with h | h
        · exact absurd (h ▸ hp') hp
        · exact hmin r' h hp'
      · right
        refine ⟨?_, hscan ▸ heq⟩
        intro r' hr'
        rcases List.mem_cons.mp hr' with h | h
        · exact h ▸ hp
        · exact hnone r' h

/-- The scan over the sorted rings either returns the points of a
matching ring of minimal diameter among the matches, or `0`. -/
theorem scan_sorted_characterization (p : RingSpec → Bool) (rings : List RingSpec) :
    (∃ r ∈ rings, p r ∧ scanRings p (sortRings rings) = r.points ∧
      ∀ r' ∈ rings, p r' → r.diameter ≤ r'.diameter) ∨
    ((∀ r ∈ rings, ¬ p r) ∧ scanRings p (sortRings rings) = 0) := by
  rcases scanRings_sorted_spec p (sortRings rings) (sortRings_pairwise rings) with
    ⟨r, hr, hp, heq, hmin⟩ | ⟨hnone, heq⟩
  · exact .inl ⟨r, mem_sortRings.mp hr, hp, heq,
      fun r' hr' hp' => hmin r' (mem_sortRings.mpr hr') hp'⟩
  · exact .inr ⟨fun r hr => hnone r (mem_sortRings.mpr hr), heq⟩

/-- Characterization of `compute_score`: it returns the points of a
hit ring of minimal diameter among the hit rings, or `0` when the
distance lies outside every ring. -/
theorem compute_score_characterization (rings : List RingSpec) (d : ℚ) :
    (∃ r ∈ rings, hitAtDist d r ∧ compute_score rings d = r.points ∧
      ∀ r' ∈ rings, hitAtDist d r' → r.diameter ≤ r'.diameter) ∨
    ((∀ r ∈ rings, ¬ hitAtDist d r) ∧ compute_score rings d = 0) :=
  scan_sorted_characterization (hitAtDist d) rings

/-- Characterization of `compute_score_sq`, the squared-distance form. -/
theorem compute_score_sq_characterization (rings : List RingSpec) (s : ℚ) :
    (∃ r ∈ rings, hitBySq s r ∧ compute_score_sq rings s = r.points ∧
      ∀ r' ∈ rings, hitBySq s r' → r.diameter ≤ r'.diameter) ∨
    ((∀ r ∈ rings, ¬ hitBySq s r) ∧ compute_score_sq rings s = 0) :=
  scan_sorted_characterization (hitBySq s) rings

/-- In a ring list with pairwise-distinct diameters, two members with
the same diameter are the same ring. -/
theorem diam_inj {l : List RingSpec}
    (h : l.Pairwise (fun a b => a.diameter ≠ b.diameter))
    {a b : RingSpec} (ha : a ∈ l) (hb : b ∈ l)
    (hd : a.diameter = b.diameter) : a = b := by
  induction l with
  | nil => simp at ha
  | cons x xs ih =>
    rw [List.pairwise_cons] at h
    rcases List.mem_cons.mp ha with rfl | ha'
    · rcases List.mem_cons.mp hb with rfl | hb'
      · rfl
      · exact absurd hd (h.1 b hb')
    · rcases List.mem_cons.mp hb with rfl | hb'
      · exact absurd hd.symm (h.1 a ha')
      · exact ih h.2 ha' hb'

/-! Stability of the sort: rings tied on the sort key keep their input
order, so filtering the sorted list down to one diameter value gives the
same list as filtering the input. -/

/-- Filtering by a predicate whose satisfying rings are pairwise
`diamLE`-comparable (for example, rings sharing one diameter) commutes
with the stable sort. -/
theorem filter_sortRings_eq (q : RingSpec → Bool) (l : List RingSpec)
    (hq : ∀ a b : RingSpec, q a → q b → diamLE a b) :
    (sortRings l).filter q = l.filter q := by
  have hc : (l.filter q).Pairwise (fun a b => diamLE a b) :=
    List.pairwise_of_forall_mem_list (by
      intro a ha b hb
      exact hq a b (List.of_mem_filter ha) (List.of_mem_filter hb))
  have hsub : (l.filter q).Sublist (sortRings l) :=
    List.sublist_mergeSort diamLE_trans diamLE_total hc (List.filter_sublist l)
  have hself : (l.filter q).filter q = l.filter q :=
    List.filter_eq_self.mpr (fun a ha => List.of_mem_filter ha)
  have hsub2 : (l.filter q).Sublist ((sortRings l).filter q) := by
    rw [← hself]
    exact hsub.filter q
  have hlen : ((sortRings l).filter q).length = (l.filter q).length :=
    ((sortRings_perm l).filter q).length_eq
  exact (hsub2.eq_of_length hlen.symm).symm

/-- First-match search for one diameter value commutes with the stable
sort: the earliest ring of that diameter in the sorted list is the
earliest one in the input list. -/
theorem find?_diam_sortRings_eq (D : ℚ) (l : List RingSpec) :
    (sortRings l).find? (fun r => decide (r.diameter = D)) =
      l.find? (fun r => decide (r.diameter = D)) := by
  rw [← List.filter_head?, ← List.filter_head?]
  rw [filter_sortRings_eq _ l]
  intro a b ha hb
  simp only [decide_eq_true_eq] at ha hb
  simp [diamLE, ha, hb]

/-- On a list sorted ascending by diameter, when some ring of diameter
`D` is present, the distance fits inside radius `D / 2`, and every hit
ring has diameter at least `D`, the first hit is exactly the first ring
of diameter `D`. -/
theorem find?_hit_eq_find?_diam (dist D : ℚ) (hcont : dist ≤ D / 2) :
    ∀ s : List RingSpec, s.Pairwise (fun a b => diamLE a b) →
      (∀ r ∈ s, hitAtDist dist r → D ≤ r.diameter) →
      (∃ w ∈ s, w.diameter = D) →
      s.find? (hitAtDist dist) = s.find? (fun r => decide (r.diameter = D))
  | [], _, _, hex => by simp at hex
  | r :: s', hs, hmin, hex => by
    rw [List.pairwise_cons] at hs
    by_cases hD : r.diameter = D
    · have hpr : hitAtDist dist r = true := by
        simp only [hitAtDist, decide_eq_true_eq, hD]
        exact hcont
      simp [List.find?_cons, hpr, hD]
    · obtain ⟨w, hw, hwD⟩ := hex
      have hw' : w ∈ s' := by
        rcases List.mem_cons.mp hw with rfl | h
        · exact absurd hwD hD
        · exact h
      cases hpr : hitAtDist dist r with
      | true =>
        have hDle : D ≤ r.diameter := hmin r (List.mem_cons_self r s') hpr
        have hlt : D < r.diameter := lt_of_le_of_ne hDle (fun hE => hD hE.symm)
        have hle : diamLE r w = true := hs.1 w hw'
        simp only [diamLE, decide_eq_true_eq, hwD] at hle
        exact absurd hle (not_le.mpr hlt)
      | false =>
        have hqr : (fun r : RingSpec => decide (r.diameter = D)) r = false := by
          simp [hD]
        simp only [List.find?_cons, hpr, hqr]
        exact find?_hit_eq_find?_diam dist D hcont s' hs.2
          (fun r hr hp => hmin r (List.mem_cons_of_mem _ hr) hp) ⟨w, hw', hwD⟩

/-! Concrete data used by witnesses and counterexamples. -/

/-- A small ISSF-like target: three rings with distinct positive
diameters (mm). -/
def exRings : List RingSpec :=
  [⟨"10", 5, 10, "#FFFFFF"⟩, ⟨"9", 25, 9, "#FFFFFF"⟩, ⟨"8", 46, 8, "#000000"⟩]

/-- A ring list with a duplicated diameter, for the tie-break claim. -/
def dupRings : List RingSpec :=
  [⟨"a", 10, 5, "#FFFFFF"⟩, ⟨"b", 10, 7, "#FFFFFF"⟩, ⟨"c", 20, 3, "#000000"⟩]

/-- A ring with a negative diameter, making the derived
`pixels_per_mm = 800 / maxDiameter` non-positive. -/
def negRing : RingSpec := ⟨"1", -2, 5, "#FFFFFF"⟩

/-- One logged shot whose `x_mm` has no exact two-decimal form. -/
def exShot : Shot := ⟨1, 7, 1/3, 0, 500, 400⟩

/-- A one-shot store reached through the dash callback. -/
def exLog : List Shot :=
  update_shots Trigger.targetGraph (some ⟨500, 300⟩) exRings []

/-! Claim theorems. -/

/-- Claim C2, counterexample: the scoring operation does not fail on the
inputs the claim says it must reject.  With an empty ring list
`compute_score` returns the numeric score `0` instead of an
`InvalidSpecError`, and with a geometry whose `pixels_per_mm` is
negative (`800 / maxDiameter [negRing] = -400 ≤ 0`) the pipeline still
returns a numeric score instead of an `InvalidGeometryError`. -/
theorem maxDiameter_negRing : maxDiameter [negRing] = -2 := rfl

theorem compute_score_counterexample :
    compute_score [] 0 = 0 ∧
    (800 : ℚ) / maxDiameter [negRing] = -400 ∧
    (scorePipeline [negRing] 800 400 300).score = 0 := by
  refine ⟨by simp [compute_score, sortRings, scanRings],
    by rw [maxDiameter_negRing]; norm_num, ?_⟩
  show compute_score_sq [negRing] _ = 0
  simp only [compute_score_sq, sortRings, List.mergeSort_singleton]
  norm_num [scanRings, hitBySq, negRing]

/-- Claim C2, amended: neither failure mode exists in the code.
`compute_score` has no empty-list guard and returns `0` for every
distance on an empty ring list, and the pipeline performs no
`pixels_per_mm` check: its score is always the plain
`compute_score_sq` of the squared millimeter offset. -/
theorem compute_score_no_validation (rings : List RingSpec) (S px py d : ℚ) :
    compute_score [] d = 0 ∧
    (scorePipeline rings S px py).score =
      compute_score_sq rings
        ((scorePipeline rings S px py).x_mm ^ 2 +
          (scorePipeline rings S px py).y_mm ^ 2) :=
  ⟨by simp [compute_score, sortRings, scanRings], rfl⟩

/-- Claim C3, counterexample: the dash export of a one-shot log carries
six columns, not four: its header is
`shot,score,x_mm,y_mm,pixel_x,pixel_y`, and the `x_mm` cell keeps the
raw value `1/3`, which has no exact two-decimal representation
(`(1/3 * 100)` is not an integer), so the claimed rounding does not
happen. -/
theorem export_counterexample :
    trigger_download [exShot] =
      some (["shot", "score", "x_mm", "y_mm", "pixel_x", "pixel_y"],
        [[1, 7, 1/3, 0, 500, 400]]) ∧
    exportHeader ≠ ["shot", "score", "x_mm", "y_mm"] ∧
    ∀ z : ℤ, (1 : ℚ) / 3 ≠ (z : ℚ) / 100 := by
  refine ⟨by norm_num [trigger_download, exShot, shotRow, exportHeader], by decide, ?_⟩
  intro z hz
  have h : (100 : ℚ) = 3 * (z : ℚ) := by
    field_simp at hz
    linarith
  have h' : (100 : ℤ) = 3 * z := by exact_mod_cast h
  omega

/-- Claim C3, amended: for every non-empty shot log the export produces
the header `shot,score,x_mm,y_mm,pixel_x,pixel_y` followed by one row
per shot in log order, with the raw (unrounded) values of all six shot
fields. -/
theorem export_format (shots : List Shot) (h : shots ≠ []) :
    trigger_download shots =
      some (["shot", "score", "x_mm", "y_mm", "pixel_x", "pixel_y"],
        shots.map shotRow) := by
  cases shots with
  | nil => exact absurd rfl h
  | cons s ss => rfl

/-- Witness for the amended C3 theorem at a concrete one-shot log. -/
theorem export_format_witness :
    [exShot] ≠ [] ∧
    trigger_download [exShot] =
      some (["shot", "score", "x_mm", "y_mm", "pixel_x", "pixel_y"],
        [exShot].map shotRow) :=
  ⟨by decide, export_format [exShot] (by decide)⟩

/-- Claim C4: exporting an empty log produces nothing (the dash callback
answers `no_update`, so no byte stream or file exists, and the callback
does not write the store, so the log is unchanged), and the export
yields a byte stream exactly when the log is populated. -/
theorem export_empty_noop (shots : List Shot) :
    trigger_download [] = none ∧
    (trigger_download shots = none ↔ shots = []) ∧
    ((trigger_download shots).isSome ↔ shots ≠ []) := by
  refine ⟨rfl, ?_, ?_⟩ <;> cases shots <;> simp [trigger_download]

/-- Claim C6: the clear button and a target change always reset the
store to the empty log, the streamlit handlers do the same to the
session state, and clearing is idempotent. -/
theorem clear_always_empties (shots : List Shot) (click : Option ClickPoint)
    (rings : List RingSpec) (t : String) :
    update_shots Trigger.clearBtn click rings shots = [] ∧
    update_shots Trigger.targetSelect click rings shots = [] ∧
    clearShots shots = [] ∧
    onTargetChanged shots t = [] ∧
    clearShots (clearShots shots) = clearShots shots ∧
    clearShots (clearShots shots) = [] :=
  ⟨rfl, rfl, rfl, rfl, rfl, rfl⟩

/-- Claim C10: the score is never fabricated: it is `0` or the points of
some ring whose radius is at least the distance; and the empty ring list
scores `0` for every distance instead of raising. -/
theorem score_from_some_ring (rings : List RingSpec) (d : ℚ) :
    (compute_score rings d = 0 ∨
      ∃ r ∈ rings, d ≤ r.diameter / 2 ∧ compute_score rings d = r.points) ∧
    compute_score [] d = 0 := by
  constructor
  · rcases compute_score_characterization rings d with ⟨r, hr, hp, heq, -⟩ | ⟨-, heq⟩
    · exact .inr ⟨r, hr, by simpa [hitAtDist] using hp, heq⟩
    · exact .inl heq
  · simp [compute_score, sortRings, scanRings]

/-- Claim C1: for every click pixel `(px, py)` on a square canvas of
size `S` with center `(S/2, S/2)` and `pixels_per_mm = S / maxDiameter`,
and every non-empty ring list with strictly positive pairwise-distinct
diameters, the pipeline returns `x_mm = (px - S/2) / pixels_per_mm`,
`y_mm = (S/2 - py) / pixels_per_mm` (Y axis inverted), and a score equal
to the points of the smallest-diameter ring whose radius
`diameter / 2` is at least `sqrt (x_mm ^ 2 + y_mm ^ 2)` (boundary
inclusive), or `0` when no ring's radius contains that distance. -/
theorem scoring_pipeline_correct (rings : List RingSpec) (S px py : ℚ)
    (hne : rings ≠ [])
    (hpos : ∀ r ∈ rings, 0 < r.diameter)
    (hdistinct : rings.Pairwise (fun a b => a.diameter ≠ b.diameter))
    (hS : 0 < S) :
    (scorePipeline rings S px py).x_mm = (px - S / 2) / (S / maxDiameter rings) ∧
    (scorePipeline rings S px py).y_mm = (S / 2 - py) / (S / maxDiameter rings) ∧
    ((∃ r ∈ rings,
        RingContains r
          ((scorePipeline rings S px py).x_mm ^ 2 +
            (scorePipeline rings S px py).y_mm ^ 2) ∧
        (scorePipeline rings S px py).score = r.points ∧
        ∀ r' ∈ rings,
          RingContains r'
            ((scorePipeline rings S px py).x_mm ^ 2 +
              (scorePipeline rings S px py).y_mm ^ 2) →
          r.diameter ≤ r'.diameter) ∨
      ((∀ r ∈ rings,
          ¬ RingContains r
            ((scorePipeline rings S px py).x_mm ^ 2 +
              (scorePipeline rings S px py).y_mm ^ 2)) ∧
        (scorePipeline rings S px py).score = 0)) := by
  refine ⟨rfl, rfl, ?_⟩
  rcases compute_score_sq_characterization rings
      ((scorePipeline rings S px py).x_mm ^ 2 + (scorePipeline rings S px py).y_mm ^ 2) with
    ⟨r, hr, hp, heq, hmin⟩ | ⟨hnone, heq⟩
  · exact .inl ⟨r, hr, (ringContains_iff_hitBySq r _).mpr hp, heq,
      fun r' hr' hc => hmin r' hr' ((ringContains_iff_hitBySq r' _).mp hc)⟩
  · exact .inr ⟨fun r hr hc => hnone r hr ((ringContains_iff_hitBySq r _).mp hc), heq⟩

/-- Witness for C1 at the concrete target `exRings`, canvas 800, click
pixel `(400, 396)`. -/
theorem scoring_pipeline_correct_witness :
    (exRings ≠ [] ∧ (∀ r ∈ exRings, 0 < r.diameter) ∧
      exRings.Pairwise (fun a b => a.diameter ≠ b.diameter) ∧ (0 : ℚ) < 800) ∧
    ((scorePipeline exRings 800 400 396).x_mm =
        (400 - 800 / 2) / (800 / maxDiameter exRings) ∧
      (scorePipeline exRings 800 400 396).y_mm =
        (800 / 2 - 396) / (800 / maxDiameter exRings) ∧
      ((∃ r ∈ exRings,
          RingContains r
            ((scorePipeline exRings 800 400 396).x_mm ^ 2 +
              (scorePipeline exRings 800 400 396).y_mm ^ 2) ∧
          (scorePipeline exRings 800 400 396).score = r.points ∧
          ∀ r' ∈ exRings,
            RingContains r'
              ((scorePipeline exRings 800 400 396).x_mm ^ 2 +
                (scorePipeline exRings 800 400 396).y_mm ^ 2) →
            r.diameter ≤ r'.diameter) ∨
        ((∀ r ∈ exRings,
            ¬ RingContains r
              ((scorePipeline exRings 800 400 396).x_mm ^ 2 +
                (scorePipeline exRings 800 400 396).y_mm ^ 2)) ∧
          (scorePipeline exRings 800 400 396).score = 0))) :=
  ⟨⟨by decide, by decide, by decide, by decide⟩,
    scoring_pipeline_correct exRings 800 400 396
      (by decide) (by decide) (by decide) (by decide)⟩

/-- Claim C7: for every non-empty ring list with strictly positive
diameters, a click exactly at the canvas center has millimeter offset
`(0, 0)` and scores the points of a ring of minimal diameter. -/
theorem center_click_scores_innermost (rings : List RingSpec) (S : ℚ)
    (hne : rings ≠ []) (hpos : ∀ r ∈ rings, 0 < r.diameter) :
    (scorePipeline rings S (S / 2) (S / 2)).x_mm = 0 ∧
    (scorePipeline rings S (S / 2) (S / 2)).y_mm = 0 ∧
    ∃ r ∈ rings, (scorePipeline rings S (S / 2) (S / 2)).score = r.points ∧
      ∀ r' ∈ rings, r.diameter ≤ r'.diameter := by
  have hzero : (S / 2 - S / 2) / (S / maxDiameter rings) = 0 := by
    rw [sub_self, zero_div]
  have hx : (scorePipeline rings S (S / 2) (S / 2)).x_mm = 0 := hzero
  have hy : (scorePipeline rings S (S / 2) (S / 2)).y_mm = 0 := hzero
  have hall : ∀ r' ∈ rings, hitBySq 0 r' = true := by
    intro r' hr'
    simp only [hitBySq, decide_eq_true_eq]
    exact ⟨le_of_lt (half_pos (hpos r' hr')), sq_nonneg _⟩
  have hscore : (scorePipeline rings S (S / 2) (S / 2)).score =
      compute_score_sq rings
        (((S / 2 - S / 2) / (S / maxDiameter rings)) ^ 2 +
          ((S / 2 - S / 2) / (S / maxDiameter rings)) ^ 2) := rfl
  rw [hzero] at hscore
  norm_num at hscore
  refine ⟨hx, hy, ?_⟩
  rcases compute_score_sq_characterization rings 0 with
    ⟨r, hr, _, heq, hmin⟩ | ⟨hnone, _⟩
  · refine ⟨r, hr, ?_, fun r' hr' => hmin r' hr' (hall r' hr')⟩
    rw [hscore]
    exact heq
  · obtain ⟨r, hr⟩ := List.exists_mem_of_ne_nil rings hne
    exact absurd (hall r hr) (hnone r hr)

/-- Witness for C7 at the concrete target `exRings` on an 800 px canvas:
the center click scores the innermost ring. -/
theorem center_click_scores_innermost_witness :
    (exRings ≠ [] ∧ ∀ r ∈ exRings, 0 < r.diameter) ∧
    ((scorePipeline exRings 800 (800 / 2) (800 / 2)).x_mm = 0 ∧
      (scorePipeline exRings 800 (800 / 2) (800 / 2)).y_mm = 0 ∧
      ∃ r ∈ exRings,
        (scorePipeline exRings 800 (800 / 2) (800 / 2)).score = r.points ∧
        ∀ r' ∈ exRings, r.diameter ≤ r'.diameter) :=
  ⟨⟨by decide, by decide⟩,
    center_click_scores_innermost exRings 800 (by decide) (by decide)⟩

/-- Claim C8: for every distance and every ring list with
pairwise-distinct diameters, permuting the rings does not change the
score. -/
theorem score_order_independent (d : ℚ) (l₁ l₂ : List RingSpec)
    (hperm : l₁.Perm l₂)
    (hdistinct : l₁.Pairwise (fun a b => a.diameter ≠ b.diameter)) :
    compute_score l₁ d = compute_score l₂ d := by
  rcases compute_score_characterization l₁ d with
    ⟨r₁, hr₁, hp₁, heq₁, hmin₁⟩ | ⟨hnone₁, heq₁⟩
  · rcases compute_score_characterization l₂ d with
      ⟨r₂, hr₂, hp₂, heq₂, hmin₂⟩ | ⟨hnone₂, heq₂⟩
    · have hr₂₁ : r₂ ∈ l₁ := hperm.mem_iff.mpr hr₂
      have hr₁₂ : r₁ ∈ l₂ := hperm.mem_iff.mp hr₁
      have h12 : r₁.diameter ≤ r₂.diameter := hmin₁ r₂ hr₂₁ hp₂
      have h21 : r₂.diameter ≤ r₁.diameter := hmin₂ r₁ hr₁₂ hp₁
      have hrr : r₁ = r₂ := diam_inj hdistinct hr₁ hr₂₁ (le_antisymm h12 h21)
      rw [heq₁, heq₂, hrr]
    · exact absurd hp₁ (hnone₂ r₁ (hperm.mem_iff.mp hr₁))
  · rcases compute_score_characterization l₂ d with
      ⟨r₂, hr₂, hp₂, heq₂, hmin₂⟩ | ⟨hnone₂, heq₂⟩
    · exact absurd hp₂ (hnone₁ r₂ (hperm.mem_iff.mpr hr₂))
    · rw [heq₁, heq₂]

/-- Witness for C8: reversing the concrete ring list does not change the
score of a click 3 mm from the center. -/
theorem score_order_independent_witness :
    (exRings.Perm exRings.reverse ∧
      exRings.Pairwise (fun a b => a.diameter ≠ b.diameter)) ∧
    compute_score exRings 3 = compute_score exRings.reverse 3 :=
  ⟨⟨(List.reverse_perm exRings).symm, by decide⟩,
    score_order_independent 3 exRings exRings.reverse
      (List.reverse_perm exRings).symm (by decide)⟩

/-- Claim C9: when two rings at different positions share the diameter
`D`, the shared radius `D / 2` contains the click distance and no
smaller ring does (every hit ring has diameter at least `D`), then
`compute_score` accepts the duplicate-diameter list and returns the
points of the tied ring appearing earliest in insertion order — the
first ring of diameter `D` found in the original list — because the
ascending sort is stable. -/
theorem duplicate_diameters_stable (l : List RingSpec) (dist D : ℚ)
    (i j : Fin l.length) (hij : (i : ℕ) ≠ (j : ℕ))
    (hdi : (l.get i).diameter = D) (hdj : (l.get j).diameter = D)
    (hcont : dist ≤ D / 2)
    (hmin : ∀ r ∈ l, dist ≤ r.diameter / 2 → D ≤ r.diameter) :
    ∃ r, l.find? (fun r => decide (r.diameter = D)) = some r ∧
      r.diameter = D ∧ compute_score l dist = r.points := by
  have hwit : ∃ w ∈ l, w.diameter = D := ⟨l.get i, l.get_mem i.1 i.2, hdi⟩
  have hmin' : ∀ r ∈ sortRings l, hitAtDist dist r → D ≤ r.diameter := by
    intro r hr hp
    exact hmin r (mem_sortRings.mp hr) (by simpa [hitAtDist] using hp)
  have hwit' : ∃ w ∈ sortRings l, w.diameter = D := by
    obtain ⟨w, hw, hwD⟩ := hwit
    exact ⟨w, mem_sortRings.mpr hw, hwD⟩
  have hfind : (sortRings l).find? (hitAtDist dist) =
      (sortRings l).find? (fun r => decide (r.diameter = D)) :=
    find?_hit_eq_find?_diam dist D hcont (sortRings l) (sortRings_pairwise l)
      hmin' hwit'
  have hfind2 : (sortRings l).find? (fun r => decide (r.diameter = D)) =
      l.find? (fun r => decide (r.diameter = D)) :=
    find?_diam_sortRings_eq D l
  have hsome : (l.find? (fun r => decide (r.diameter = D))).isSome := by
    rw [List.find?_isSome]
    obtain ⟨w, hw, hwD⟩ := hwit
    exact ⟨w, hw, by simp [hwD]⟩
  obtain ⟨r, hr⟩ := Option.isSome_iff_exists.mp hsome
  refine ⟨r, hr, ?_, ?_⟩
  · have hqr := List.find?_some hr
    simpa using hqr
  · show scanRings (hitAtDist dist) (sortRings l) = r.points
    rw [scanRings_eq_find?, hfind, hfind2, hr]
    rfl

/-- Witness for C9: in `dupRings` the two diameter-10 rings are tied at
positions 0 and 1; a click 4 mm out is inside radius 5 and the earliest
tied ring (points 5) wins. -/
theorem duplicate_diameters_stable_witness :
    ((0 : ℕ) ≠ (1 : ℕ) ∧
      (dupRings.get ⟨0, by decide⟩).diameter = 10 ∧
      (dupRings.get ⟨1, by decide⟩).diameter = 10 ∧
      (4 : ℚ) ≤ 10 / 2 ∧
      ∀ r ∈ dupRings, (4 : ℚ) ≤ r.diameter / 2 → (10 : ℚ) ≤ r.diameter) ∧
    ∃ r, dupRings.find? (fun r => decide (r.diameter = 10)) = some r ∧
      r.diameter = 10 ∧ compute_score dupRings 4 = r.points :=
  ⟨⟨by decide, by norm_num [dupRings], by norm_num [dupRings], by norm_num,
      by norm_num [dupRings]⟩,
    duplicate_diameters_stable dupRings 4 10 ⟨0, by decide⟩ ⟨1, by decide⟩
      (by decide) (by norm_num [dupRings]) (by norm_num [dupRings])
      (by norm_num) (by norm_num [dupRings])⟩

/-- Indices are consecutive from 1 in every shot list reachable through
the dash callback from the empty store. -/
theorem reachable_indices {shots : List Shot} (h : Reachable shots) :
    ∀ (i : ℕ) (hi : i < shots.length), (shots.get ⟨i, hi⟩).shot = i + 1 := by
  induction h with
  | empty =>
    intro i hi
    simp at hi
  | step trig click rings hr ih =>
    cases trig with
    | clearBtn =>
      intro i hi
      simp [update_shots] at hi
    | targetSelect =>
      intro i hi
      simp [update_shots] at hi
    | targetGraph =>
      cases click with
      | none => exact ih
      | some point =>
        intro i hi
        show ((_ ++ [_] : List Shot).get ⟨i, _⟩).shot = i + 1
        rename_i shots0
        have hlen : i < shots0.length + 1 := by
          simpa [update_shots, appendClick] using hi
        rcases Nat.lt_or_ge i shots0.length with hlt | hge
        · rw [List.get_eq_getElem, List.getElem_append_left hlt]
          exact ih i hlt
        · have hieq : i = shots0.length := by omega
          subst hieq
          rw [List.get_eq_getElem]
          simp [List.getElem_concat_length]

/-- Claim C5: appending a shot grows the log by exactly one, the new
shot's index is the new length, every reachable log numbers its shots
consecutively from 1, and appending right after a clear restarts the
numbering at index 1. -/
theorem append_increments_and_numbers (rings : List RingSpec)
    (point : ClickPoint) (shots : List Shot) (h : Reachable shots) :
    (appendClick rings point shots).length = shots.length + 1 ∧
    (appendClick rings point shots).getLast?.map Shot.shot =
      some (shots.length + 1) ∧
    (∀ (i : ℕ) (hi : i < shots.length), (shots.get ⟨i, hi⟩).shot = i + 1) ∧
    (∀ prior : List Shot,
      (appendClick rings point (clearShots prior)).length = 1 ∧
      (appendClick rings point (clearShots prior)).head?.map Shot.shot =
        some 1) := by
  refine ⟨by simp [appendClick], ?_, reachable_indices h, ?_⟩
  · simp [appendClick]
  · intro prior
    exact ⟨rfl, rfl⟩

/-- Witness for C5 at the one-shot reachable log `exLog`. -/
theorem append_increments_and_numbers_witness :
    Reachable exLog ∧
    ((appendClick exRings ⟨500, 300⟩ exLog).length = exLog.length + 1 ∧
      (appendClick exRings ⟨500, 300⟩ exLog).getLast?.map Shot.shot =
        some (exLog.length + 1) ∧
      (∀ (i : ℕ) (hi : i < exLog.length), (exLog.get ⟨i, hi⟩).shot = i + 1) ∧
      (∀ prior : List Shot,
        (appendClick exRings ⟨500, 300⟩ (clearShots prior)).length = 1 ∧
        (appendClick exRings ⟨500, 300⟩ (clearShots prior)).head?.map Shot.shot =
          some 1)) :=
  ⟨Reachable.step Trigger.targetGraph (some ⟨500, 300⟩) exRings Reachable.empty,
    append_increments_and_numbers exRings ⟨500, 300⟩ exLog
      (Reachable.step Trigger.targetGraph (some ⟨500, 300⟩) exRings
        Reachable.empty)⟩

end ShotPlot
